import Mathlib

/-!
Shallow embedding of the star-network Nash-stability search
(`ColourCodingStarNetworkWithPreferences` in `main.py`, namespace `Pref`,
and `ColourCodingStarNetwork` in `test.py`, namespace `Cap`).

Python dictionaries are modelled as association lists; a dict lookup that
can raise `KeyError` is modelled as an `Option`-valued lookup, and every
function that can raise propagates `none`.  A Python function that can
raise is therefore `Option`-valued, with `none` standing for an uncaught
exception and `some r` for a normal return of `r`.

Leaf assignments (Python dicts built by comprehensions over
`self.leaf_players`) are modelled as association lists `List (String × String)`
whose key order is the construction order, matching `dict.items()` iteration.
Python `set` objects (`activities_in_use`) are modelled as `List String`;
only membership and iteration are used, and no result proved here depends
on the (unspecified) enumeration order beyond what the model fixes.
-/

/-- Lookup in an association list, first match wins: the model of `d[k]`
returning `some v`, or `none` for a `KeyError`. -/
def dlookup {β : Type} (k : String) : List (String × β) → Option β
  | [] => none
  | (a, b) :: t => if a = k then some b else dlookup k t

/-- Model of `if k not in d: d[k] = 0` on a Python counter dict (and of
`d[k] = 0` when the existing value can only be `0`): insert key `k` with
value `0` if absent, keeping insertion order. -/
def dictInsert0 (k : String) (c : List (String × Nat)) : List (String × Nat) :=
  if (dlookup k c).isSome then c else c ++ [(k, 0)]

/-- Model of `d[k] += 1`: increment the first binding of `k`, `none` on a
`KeyError` (key absent). -/
def incr (k : String) : List (String × Nat) → Option (List (String × Nat))
  | [] => none
  | (a, n) :: t =>
    if a = k then some ((a, n + 1) :: t)
    else (incr k t).map (fun t2 => (a, n) :: t2)

/-- The loop `for leaf, activity in leaf_assignment.items(): activity_count[activity] += 1`. -/
def countLoop : List (String × String) → List (String × Nat) → Option (List (String × Nat))
  | [], c => some c
  | (_, act) :: rest, c =>
    match incr act c with
    | none => none
    | some c2 => countLoop rest c2

namespace Pref

/-- The configuration of `ColourCodingStarNetworkWithPreferences.__init__`. -/
structure Net where
  central_player : String
  leaf_players : List String
  activities : List String
  preferences : List (String × List (String × Nat))

/-- The reserved opt-out activity (`self.void_activity`). -/
def void_activity : String := "void"

/-- Construction of `activity_count` before the counting loop: zero for every
activity in use, for `void`, and for the center activity if absent. -/
def initCounts (activities_in_use : List String) (center_activity : String) :
    List (String × Nat) :=
  dictInsert0 center_activity
    (dictInsert0 void_activity (activities_in_use.map (fun a => (a, 0))))

/-- The loop `for leaf, activity in leaf_assignment.items()` checking leaf
satisfaction: reject when the pair (activity, group size) is missing from the
leaf's preference list and the activity is not `void`. -/
def leafCheck (net : Net) (count : List (String × Nat)) :
    List (String × String) → Option Bool
  | [] => some true
  | (leaf, act) :: rest =>
    match dlookup act count with
    | none => none
    | some g =>
      match dlookup leaf net.preferences with
      | none => none
      | some lprefs =>
        if (act, g) ∉ lprefs ∧ act ≠ void_activity then some false
        else leafCheck net count rest

/-- The inner loop `for alt_activity in activities_in_use` of the void-deviation
check: `some true` when the leaf accepts joining some activity in use. -/
def deviates (net : Net) (leaf : String) (count : List (String × Nat)) :
    List String → Option Bool
  | [] => some false
  | alt :: rest =>
    match dlookup alt count with
    | none => none
    | some n =>
      match dlookup leaf net.preferences with
      | none => none
      | some lprefs =>
        if (alt, n + 1) ∈ lprefs then some true
        else deviates net leaf count rest

/-- The loop rejecting assignments in which a void-assigned leaf wants to
deviate to an activity in use. -/
def voidCheck (net : Net) (count : List (String × Nat)) (activities_in_use : List String) :
    List (String × String) → Option Bool
  | [] => some true
  | (leaf, act) :: rest =>
    if act = void_activity then
      match deviates net leaf count activities_in_use with
      | none => none
      | some true => some false
      | some false => voidCheck net count activities_in_use rest
    else voidCheck net count activities_in_use rest

/-- Model of `ColourCodingStarNetworkWithPreferences.is_assignment_stable`
(`main.py` lines 120-160).  `none` models an uncaught `KeyError`. -/
def is_assignment_stable (net : Net) (center_assignment : String × Nat)
    (activities_in_use : List String) (leaf_assignment : List (String × String)) :
    Option Bool :=
  let center_activity := center_assignment.1
  let center_group_size := center_assignment.2
  match countLoop leaf_assignment (initCounts activities_in_use center_activity) with
  | none => none
  | some count =>
    match dlookup net.central_player net.preferences with
    | none => none
    | some cprefs =>
      if (center_activity, center_group_size) ∉ cprefs then some false
      else
        match leafCheck net count leaf_assignment with
        | none => none
        | some false => some false
        | some true =>
          match voidCheck net count activities_in_use leaf_assignment with
          | none => none
          | some false => some false
          | some true => some true

/-- Model of `guess_center_assignment`: `self.preferences.get(central_player, [])`. -/
def guess_center_assignment (net : Net) : List (String × Nat) :=
  (dlookup net.central_player net.preferences).getD []

/-- The colour list `list(activities_in_use) + [void]` used by the unfiltered
samplers. -/
def possibleColours (activities_in_use : List String) : List String :=
  activities_in_use ++ [void_activity]

/-- Model of `random.choice(pc)` driven by an oracle value `r`: the element at
index `r % len(pc)`.  `pc` is never empty where this is used (`void` is always
appended), so the default is never produced. -/
def choiceFrom (pc : List String) (r : Nat) : String :=
  pc.getD (r % pc.length) void_activity

/-- One trial of `random_colouring`: the dict comprehension
`{leaf: random.choice(possible_colours) for leaf in self.leaf_players}`,
with the random source modelled by `pick` indexed by leaf position. -/
def randomAssignment (pc : List String) (pick : Nat → Nat) :
    List String → Nat → List (String × String)
  | [], _ => []
  | leaf :: rest, i => (leaf, choiceFrom pc (pick i)) :: randomAssignment pc pick rest (i + 1)

/-- Model of `random_colouring` (`main.py` lines 35-46): 100 uniform-random
trials over the full colour list, the random source modelled by the oracle
`pick` (trial index, leaf index). -/
def random_colouring (net : Net) (activities_in_use : List String)
    (pick : Nat → Nat → Nat) : List (List (String × String)) :=
  (List.range 100).map (fun t =>
    randomAssignment (possibleColours activities_in_use) (pick t) net.leaf_players 0)

/-- The per-leaf filtered colour list
`[pref[0] for pref in preferences[leaf] if pref[0] in activities_in_use] + [void]`. -/
def filteredColours (lprefs : List (String × Nat)) (activities_in_use : List String) :
    List String :=
  ((lprefs.filter (fun p => decide (p.1 ∈ activities_in_use))).map Prod.fst) ++ [void_activity]

/-- One trial of `random_colouring_opti`: each leaf draws from its filtered
colour list; a leaf missing from the preference dict raises (`none`). -/
def randomOptiAssignment (net : Net) (activities_in_use : List String) (pick : Nat → Nat) :
    List String → Nat → Option (List (String × String))
  | [], _ => some []
  | leaf :: rest, i =>
    match dlookup leaf net.preferences with
    | none => none
    | some lprefs =>
      match randomOptiAssignment net activities_in_use pick rest (i + 1) with
      | none => none
      | some a => some ((leaf, choiceFrom (filteredColours lprefs activities_in_use) (pick i)) :: a)

/-- The `for _ in range(num_samples)` accumulation loop shared by the
fallible samplers: run one trial per index, propagating an exception. -/
def trialsLoop (f : Nat → Option (List (String × String))) :
    List Nat → Option (List (List (String × String)))
  | [] => some []
  | t :: ts =>
    match f t with
    | none => none
    | some a =>
      match trialsLoop f ts with
      | none => none
      | some as => some (a :: as)

/-- Model of `random_colouring_opti` (`main.py` lines 48-64). -/
def random_colouring_opti (net : Net) (activities_in_use : List String)
    (pick : Nat → Nat → Nat) (num_samples : Nat) :
    Option (List (List (String × String))) :=
  trialsLoop (fun t => randomOptiAssignment net activities_in_use (pick t) net.leaf_players 0)
    (List.range num_samples)

/-- All length-`n` tuples over `colours`, in the order of
`itertools.product(colours, repeat=n)` (first coordinate varies slowest). -/
def tuples (colours : List String) : Nat → List (List String)
  | 0 => [[]]
  | n + 1 => colours.flatMap (fun c => (tuples colours n).map (fun t => c :: t))

/-- Model of `exhaustive_colouring` (`main.py` lines 68-76): every assignment
of the full colour list to the leaves. -/
def exhaustive_colouring (net : Net) (activities_in_use : List String) :
    List (List (String × String)) :=
  (tuples (possibleColours activities_in_use) net.leaf_players.length).map
    (fun t => net.leaf_players.zip t)

/-- The first loop of `exhaustive_colouring_opti` building `all_options`:
per leaf, its filtered colour list; raises on a leaf missing from the
preference dict. -/
def allOptions (net : Net) (activities_in_use : List String) :
    List String → Option (List (List String))
  | [] => some []
  | leaf :: rest =>
    match dlookup leaf net.preferences with
    | none => none
    | some lprefs =>
      match allOptions net activities_in_use rest with
      | none => none
      | some os => some (filteredColours lprefs activities_in_use :: os)

/-- The order of `itertools.product(*all_options)` over heterogeneous
per-position option lists. -/
def productL : List (List String) → List (List String)
  | [] => [[]]
  | opts :: rest => opts.flatMap (fun c => (productL rest).map (fun t => c :: t))

/-- Model of `exhaustive_colouring_opti` (`main.py` lines 78-93). -/
def exhaustive_colouring_opti (net : Net) (activities_in_use : List String) :
    Option (List (List (String × String))) :=
  (allOptions net activities_in_use net.leaf_players).map
    (fun os => (productL os).map (fun t => net.leaf_players.zip t))

/-- The option/weight pair a leaf gets in `heuristic_colouring`: filtered
activities weighted `len(preferences[leaf]) - i` by filtered position `i`,
then `void` with weight 1. -/
def heuristicOptions (lprefs : List (String × Nat)) (activities_in_use : List String) :
    List String × List Nat :=
  let preferred := (lprefs.filter (fun p => decide (p.1 ∈ activities_in_use))).map Prod.fst
  let weights := (List.range preferred.length).map (fun i => lprefs.length - i)
  (preferred ++ [void_activity], weights ++ [1])

/-- Model of `random.choices(xs, weights)[0]`: walk the cumulative weights with
an oracle draw `r`. -/
def pickWeighted : List String → List Nat → Nat → String
  | [], _, _ => void_activity
  | x :: _, [], _ => x
  | x :: xs, w :: ws, r => if r < w then x else pickWeighted xs ws (r - w)

/-- One trial of `heuristic_colouring`: each leaf drawn from its weighted
filtered options; the oracle draw is reduced modulo the total weight (which
is at least 1, `void`'s weight). -/
def heuristicAssignment (net : Net) (activities_in_use : List String) (pick : Nat → Nat) :
    List String → Nat → Option (List (String × String))
  | [], _ => some []
  | leaf :: rest, i =>
    match dlookup leaf net.preferences with
    | none => none
    | some lprefs =>
      match heuristicAssignment net activities_in_use pick rest (i + 1) with
      | none => none
      | some a =>
        let po := heuristicOptions lprefs activities_in_use
        some ((leaf, pickWeighted po.1 po.2 (pick i % po.2.sum)) :: a)

/-- Model of `heuristic_colouring` (`main.py` lines 96-118). -/
def heuristic_colouring (net : Net) (activities_in_use : List String)
    (pick : Nat → Nat → Nat) (num_samples : Nat) :
    Option (List (List (String × String))) :=
  trialsLoop (fun t => heuristicAssignment net activities_in_use (pick t) net.leaf_players 0)
    (List.range num_samples)

/-- Model of the dict update `{**colouring, central_player: a}`: replace the
binding if present (keys of sampler-built colourings are the distinct leaves,
so the central player is in fact absent), else append. -/
def extendAssignment (colouring : List (String × String)) (central : String) (a : String) :
    List (String × String) :=
  if (dlookup central colouring).isSome then
    colouring.map (fun p => if p.1 = central then (p.1, a) else p)
  else colouring ++ [(central, a)]

/-- The inner loop of `find_nash_stable_assignment` over one sampled batch:
return the first stable colouring extended with the central player, `some none`
when none is stable, `none` when the verifier raises. -/
def firstStable (net : Net) (ca : String × Nat) (activities_in_use : List String) :
    List (List (String × String)) → Option (Option (List (String × String)))
  | [] => some none
  | col :: rest =>
    match is_assignment_stable net ca activities_in_use col with
    | none => none
    | some true => some (some (extendAssignment col net.central_player ca.1))
    | some false => firstStable net ca activities_in_use rest

/-- The outer loop of `find_nash_stable_assignment` over center guesses; the
guess index feeds the random oracle so each batch gets fresh randomness. -/
def findLoop (net : Net) (activities_in_use : List String)
    (pick : Nat → Nat → Nat → Nat) :
    List (String × Nat) → Nat → Option (Option (List (String × String)))
  | [], _ => some none
  | ca :: rest, idx =>
    match firstStable net ca activities_in_use
        (random_colouring net activities_in_use (pick idx)) with
    | none => none
    | some (some r) => some (some r)
    | some none => findLoop net activities_in_use pick rest (idx + 1)

/-- Model of `find_nash_stable_assignment` (`main.py` lines 163-177).  The
single activity subset is `set(pref[0] for pref in preferences[central])`,
modelled as `.dedup` of the listed activities (a Python set is enumerated in
an unspecified order; only membership matters to the results proved here);
building it raises when the central player has no preference entry.  The
outer `none` models an exception, `some none` the Python `None` return. -/
def find_nash_stable_assignment (net : Net) (pick : Nat → Nat → Nat → Nat) :
    Option (Option (List (String × String))) :=
  match dlookup net.central_player net.preferences with
  | none => none
  | some cprefs =>
    findLoop net (cprefs.map Prod.fst).dedup pick (guess_center_assignment net) 0

/-- The inner loop of `find_all_nash_stable_assignments`: collect every stable
colouring, extended with the central player, in enumeration order. -/
def collectStable (net : Net) (ca : String × Nat) (activities_in_use : List String) :
    List (List (String × String)) → Option (List (List (String × String)))
  | [] => some []
  | col :: rest =>
    match is_assignment_stable net ca activities_in_use col with
    | none => none
    | some true =>
      match collectStable net ca activities_in_use rest with
      | none => none
      | some acc => some (extendAssignment col net.central_player ca.1 :: acc)
    | some false => collectStable net ca activities_in_use rest

/-- The outer loop of `find_all_nash_stable_assignments` over center guesses,
with the unfiltered exhaustive sampler the code actually calls. -/
def findAllLoop (net : Net) (activities_in_use : List String) :
    List (String × Nat) → Option (List (List (String × String)))
  | [] => some []
  | ca :: rest =>
    match collectStable net ca activities_in_use
        (exhaustive_colouring net activities_in_use) with
    | none => none
    | some here =>
      match findAllLoop net activities_in_use rest with
      | none => none
      | some there => some (here ++ there)

/-- Model of `find_all_nash_stable_assignments` (`main.py` lines 180-198);
the sampler used is `exhaustive_colouring`, the unfiltered one. -/
def find_all_nash_stable_assignments (net : Net) :
    Option (List (List (String × String))) :=
  match dlookup net.central_player net.preferences with
  | none => none
  | some cprefs =>
    findAllLoop net (cprefs.map Prod.fst).dedup (guess_center_assignment net)

/-- The outer loop of the find-all search with `exhaustive_colouring_opti`
substituted for `exhaustive_colouring`, for comparison with `findAllLoop`. -/
def findAllLoopOpti (net : Net) (activities_in_use : List String) :
    List (String × Nat) → Option (List (List (String × String)))
  | [] => some []
  | ca :: rest =>
    match exhaustive_colouring_opti net activities_in_use with
    | none => none
    | some cols =>
      match collectStable net ca activities_in_use cols with
      | none => none
      | some here =>
        match findAllLoopOpti net activities_in_use rest with
        | none => none
        | some there => some (here ++ there)

/-- The find-all search as the spec describes it: identical to
`find_all_nash_stable_assignments` except that each center guess enumerates
the preference-filtered Cartesian product `exhaustive_colouring_opti`. -/
def find_all_nash_stable_assignments_opti (net : Net) :
    Option (List (List (String × String))) :=
  match dlookup net.central_player net.preferences with
  | none => none
  | some cprefs =>
    findAllLoopOpti net (cprefs.map Prod.fst).dedup (guess_center_assignment net)

end Pref

namespace Cap

/-- The reserved opt-out activity of the capacity-style class in `test.py`. -/
def void_activity : String := "void"

/-- Construction of `activity_count` in the capacity-style verifier: zero for
every activity in use and for `void` (no entry for the center activity). -/
def initCounts (activities_in_use : List String) : List (String × Nat) :=
  dictInsert0 void_activity (activities_in_use.map (fun a => (a, 0)))

/-- The loop `for activity in activities_in_use` requiring every activity in
use other than the center activity to have exactly one assigned leaf. -/
def uniqueCheck (count : List (String × Nat)) (center_activity : String) :
    List String → Option Bool
  | [] => some true
  | a :: rest =>
    match dlookup a count with
    | none => none
    | some n =>
      if n ≠ 1 ∧ a ≠ center_activity then some false
      else uniqueCheck count center_activity rest

/-- The inner loop of the capacity-style void-deviation check: `some true`
when some non-void activity in use has fewer than two participants. -/
def capDeviates (count : List (String × Nat)) : List String → Option Bool
  | [] => some false
  | alt :: rest =>
    if alt = void_activity then capDeviates count rest
    else
      match dlookup alt count with
      | none => none
      | some n =>
        if n < 2 then some true
        else capDeviates count rest

/-- The capacity-style loop over void-assigned leaves. -/
def capVoidCheck (count : List (String × Nat)) (activities_in_use : List String) :
    List (String × String) → Option Bool
  | [] => some true
  | (_, act) :: rest =>
    if act = void_activity then
      match capDeviates count activities_in_use with
      | none => none
      | some true => some false
      | some false => capVoidCheck count activities_in_use rest
    else capVoidCheck count activities_in_use rest

/-- Model of `ColourCodingStarNetwork.is_assignment_stable` (`test.py`
lines 52-87).  `none` models an uncaught `KeyError`; in particular the
lookup `activity_count[center_activity]` raises when the center activity
is neither in `activities_in_use` nor `void`. -/
def is_assignment_stable (center_assignment : String × Nat)
    (activities_in_use : List String) (leaf_assignment : List (String × String)) :
    Option Bool :=
  match countLoop leaf_assignment (initCounts activities_in_use) with
  | none => none
  | some count =>
    match dlookup center_assignment.1 count with
    | none => none
    | some n =>
      if n ≠ center_assignment.2 then some false
      else
        match uniqueCheck count center_assignment.1 activities_in_use with
        | none => none
        | some false => some false
        | some true =>
          match capVoidCheck count activities_in_use leaf_assignment with
          | none => none
          | some false => some false
          | some true => some true

end Cap

/-! Basic lemmas about the dictionary model -/

/-- The number of leaves an assignment places on activity `x`: the value
`activity_count[x]` holds for `x` after the counting loop, starting from 0. -/
def leavesOn (x : String) (A : List (String × String)) : Nat :=
  (A.filter (fun p => decide (p.2 = x))).length

/-! Concrete networks and a concrete random oracle used by counterexamples
and witnesses. -/

/-- A network whose central player wants activity "A" with group size 5 and
whose only leaf accepts nothing. -/
def netCenterFive : Pref.Net :=
  ⟨"c", ["l"], ["A"], [("c", [("A", 5)]), ("l", [])]⟩

/-- A network whose central player and only leaf both accept ("A", 1). -/
def netSoloA : Pref.Net :=
  ⟨"c", ["l"], ["A"], [("c", [("A", 1)]), ("l", [("A", 1)])]⟩

/-- A network whose only leaf accepts only activity "B", which lies outside
the activity subset ["A"] used below: its filtered colour list is empty. -/
def netNoOverlap : Pref.Net :=
  ⟨"c", ["l"], ["A", "B"], [("c", [("A", 1)]), ("l", [("B", 2)])]⟩

/-- A constant oracle standing for one concrete behaviour of the random
source. -/
def pickZero : Nat → Nat → Nat → Nat := fun _ _ _ => 0

/-- A network with two activities where the only leaf ranks "B" before "A",
while the unfiltered colour list enumerates "A" before "B". -/
def netTwoAct : Pref.Net :=
  ⟨"c", ["l"], ["A", "B"], [("c", [("A", 1), ("B", 1)]), ("l", [("B", 1), ("A", 1)])]⟩

theorem dlookup_append {β : Type} (k : String) (l1 l2 : List (String × β)) :
    dlookup k (l1 ++ l2) =
      if (dlookup k l1).isSome then dlookup k l1 else dlookup k l2 := by
  induction l1 with
  | nil => simp [dlookup]
  | cons p t ih =>
    obtain ⟨a, b⟩ := p
    by_cases h : a = k <;> simp [dlookup, h, ih]

theorem dlookup_dictInsert0 (j k : String) (c : List (String × Nat)) :
    dlookup k (dictInsert0 j c) =
      if (dlookup k c).isSome then dlookup k c
      else if k = j then some 0 else none := by
  unfold dictInsert0
  by_cases hj : (dlookup j c).isSome
  · rw [if_pos hj]
    by_cases hk : (dlookup k c).isSome
    · rw [if_pos hk]
    · rw [if_neg hk]
      have hkn : dlookup k c = none := Option.not_isSome_iff_eq_none.mp hk
      by_cases hkj : k = j
      · subst hkj; rw [hkn] at hj; simp at hj
      · rw [if_neg hkj, hkn]
  · rw [if_neg hj, dlookup_append]
    by_cases hk : (dlookup k c).isSome
    · rw [if_pos hk, if_pos hk]
    · rw [if_neg hk, if_neg hk]
      by_cases hkj : k = j
      · subst hkj; simp [dlookup]
      · have hjk : j ≠ k := Ne.symm hkj
        simp [dlookup, hjk, hkj]

theorem dlookup_map_zero (U : List String) (k : String) :
    dlookup k (U.map (fun a => (a, 0))) = if k ∈ U then some 0 else none := by
  induction U with
  | nil => simp [dlookup]
  | cons a t ih =>
    by_cases h : a = k
    · subst h; simp [dlookup]
    · simp [dlookup, h, ih, Ne.symm h]

theorem mem_of_dlookup {β : Type} {k : String} {l : List (String × β)} {v : β}
    (h : dlookup k l = some v) : (k, v) ∈ l := by
  induction l with
  | nil => simp [dlookup] at h
  | cons p t ih =>
    obtain ⟨a, b⟩ := p
    by_cases ha : a = k
    · subst ha
      simp [dlookup] at h
      simp [h]
    · simp [dlookup, ha] at h
      exact List.mem_cons_of_mem _ (ih h)

/-! Lemmas about the counting loop -/

theorem incr_lookup {k : String} {c c2 : List (String × Nat)}
    (h : incr k c = some c2) (x : String) :
    dlookup x c2 = if x = k then (dlookup x c).map (· + 1) else dlookup x c := by
  induction c generalizing c2 with
  | nil => simp [incr] at h
  | cons p t ih =>
    obtain ⟨a, n⟩ := p
    by_cases ha : a = k
    · subst ha
      simp only [incr, if_pos rfl] at h
      cases h
      by_cases hx : a = x
      · subst hx; simp [dlookup]
      · simp [dlookup, hx, Ne.symm hx]
    · simp only [incr, if_neg ha] at h
      cases ht : incr k t with
      | none => simp [ht] at h
      | some t2 =>
        simp only [ht, Option.map_some] at h
        cases h
        by_cases hx : a = x
        · subst hx
          simp [dlookup, ha]
        · simp [dlookup, hx, ih ht]

theorem incr_isSome {k : String} {c : List (String × Nat)} :
    (incr k c).isSome = (dlookup k c).isSome := by
  induction c with
  | nil => simp [incr, dlookup]
  | cons p t ih =>
    obtain ⟨a, n⟩ := p
    by_cases ha : a = k <;> simp [incr, dlookup, ha, ih]

theorem countLoop_lookup {A : List (String × String)} {c c2 : List (String × Nat)}
    (h : countLoop A c = some c2) (x : String) :
    dlookup x c2 = (dlookup x c).map (· + leavesOn x A) := by
  induction A generalizing c with
  | nil =>
    simp only [countLoop] at h
    cases h
    simp [leavesOn]
  | cons p rest ih =>
    obtain ⟨l, act⟩ := p
    simp only [countLoop] at h
    cases hi : incr act c with
    | none => simp [hi] at h
    | some cmid =>
      simp only [hi] at h
      have hmid := ih h
      rw [hmid, incr_lookup hi x]
      by_cases hx : x = act
      · subst hx
        have hl : leavesOn x ((l, x) :: rest) = leavesOn x rest + 1 := by
          simp [leavesOn]
        rw [hl, if_pos rfl]
        cases dlookup x c with
        | none => simp
        | some v => simp; omega
      · have hax : act ≠ x := Ne.symm hx
        have hl : leavesOn x ((l, act) :: rest) = leavesOn x rest := by
          simp [leavesOn, hax]
        rw [hl, if_neg hx]

theorem countLoop_total {A : List (String × String)} {c : List (String × Nat)}
    (h : ∀ p ∈ A, (dlookup p.2 c).isSome) : ∃ c2, countLoop A c = some c2 := by
  induction A generalizing c with
  | nil => exact ⟨c, rfl⟩
  | cons p rest ih =>
    obtain ⟨l, act⟩ := p
    have hact : (dlookup act c).isSome := h (l, act) (List.mem_cons_self _ _)
    have hi : (incr act c).isSome := by rw [incr_isSome]; exact hact
    obtain ⟨cmid, hmid⟩ := Option.isSome_iff_exists.mp hi
    have hrest : ∀ p ∈ rest, (dlookup p.2 cmid).isSome := by
      intro q hq
      have hq2 := h q (List.mem_cons_of_mem _ hq)
      rw [incr_lookup hmid q.2]
      by_cases hx : q.2 = act
      · rw [if_pos hx]
        cases hv : dlookup q.2 c with
        | none => rw [hv] at hq2; simp at hq2
        | some v => simp [hv]
      · rw [if_neg hx]; exact hq2
    obtain ⟨c2, h2⟩ := ih hrest
    exact ⟨c2, by simp [countLoop, hmid, h2]⟩

/-! The occupancy dictionary of the preference-style verifier -/

theorem Pref.initCounts_lookup (U : List String) (ca k : String) :
    dlookup k (Pref.initCounts U ca) =
      if k ∈ U ∨ k = Pref.void_activity ∨ k = ca then some 0 else none := by
  unfold Pref.initCounts
  rw [dlookup_dictInsert0, dlookup_dictInsert0, dlookup_map_zero]
  split_ifs <;> simp_all

theorem Pref.count_lookup {U : List String} {ca : String} {A : List (String × String)}
    {count : List (String × Nat)}
    (h : countLoop A (Pref.initCounts U ca) = some count) (x : String) :
    dlookup x count =
      if x ∈ U ∨ x = Pref.void_activity ∨ x = ca then some (leavesOn x A) else none := by
  rw [countLoop_lookup h x, Pref.initCounts_lookup]
  by_cases hx : x ∈ U ∨ x = Pref.void_activity ∨ x = ca <;> simp [hx]

/-! The three rejection loops of the preference-style verifier -/

theorem Pref.leafCheck_total (net : Pref.Net) (count : List (String × Nat))
    (A : List (String × String))
    (hk : ∀ p ∈ A, (dlookup p.2 count).isSome)
    (hp : ∀ p ∈ A, (dlookup p.1 net.preferences).isSome) :
    ∃ b, Pref.leafCheck net count A = some b := by
  revert hk hp
  induction A with
  | nil => exact fun _ _ => ⟨true, rfl⟩
  | cons p rest ih =>
    intro hk hp
    obtain ⟨leaf, act⟩ := p
    obtain ⟨g, hg⟩ := Option.isSome_iff_exists.mp (hk _ (List.mem_cons_self _ _))
    obtain ⟨lp, hlp⟩ := Option.isSome_iff_exists.mp (hp _ (List.mem_cons_self _ _))
    obtain ⟨b, hb⟩ := ih (fun q hq => hk q (List.mem_cons_of_mem _ hq))
      (fun q hq => hp q (List.mem_cons_of_mem _ hq))
    by_cases hc : (act, g) ∉ lp ∧ act ≠ Pref.void_activity
    · exact ⟨false, by simp [Pref.leafCheck, hg, hlp, hc]⟩
    · exact ⟨b, by simp [Pref.leafCheck, hg, hlp, hc, hb]⟩

theorem Pref.leafCheck_true {net : Pref.Net} {count : List (String × Nat)}
    {A : List (String × String)}
    (h : Pref.leafCheck net count A = some true) :
    ∀ p ∈ A, p.2 ≠ Pref.void_activity →
      ∃ lp g, dlookup p.1 net.preferences = some lp ∧
        dlookup p.2 count = some g ∧ (p.2, g) ∈ lp := by
  revert h
  induction A with
  | nil => intro _ p hp; simp at hp
  | cons q rest ih =>
    intro h p hp hv
    obtain ⟨leaf, act⟩ := q
    cases hg : dlookup act count with
    | none => simp [Pref.leafCheck, hg] at h
    | some g =>
      cases hlp : dlookup leaf net.preferences with
      | none => simp [Pref.leafCheck, hg, hlp] at h
      | some lp =>
        simp only [Pref.leafCheck, hg, hlp] at h
        by_cases hc : (act, g) ∉ lp ∧ act ≠ Pref.void_activity
        · rw [if_pos hc] at h; simp at h
        · rw [if_neg hc] at h
          rcases List.mem_cons.mp hp with hpq | hpr
          · subst hpq
            refine ⟨lp, g, hlp, hg, ?_⟩
            rcases not_and_or.mp hc with hm | hvv
            · exact not_not.mp hm
            · exact absurd (not_not.mp hvv) hv
          · exact ih h p hpr hv

theorem Pref.deviates_total (net : Pref.Net) (leaf : String)
    (count : List (String × Nat)) (U : List String)
    (hk : ∀ alt ∈ U, (dlookup alt count).isSome)
    (hp : U ≠ [] → (dlookup leaf net.preferences).isSome) :
    ∃ b, Pref.deviates net leaf count U = some b := by
  revert hk hp
  induction U with
  | nil => exact fun _ _ => ⟨false, rfl⟩
  | cons alt rest ih =>
    intro hk hp
    obtain ⟨n, hn⟩ := Option.isSome_iff_exists.mp (hk _ (List.mem_cons_self _ _))
    obtain ⟨lp, hlp⟩ := Option.isSome_iff_exists.mp (hp (by simp))
    by_cases hm : (alt, n + 1) ∈ lp
    · exact ⟨true, by simp [Pref.deviates, hn, hlp, hm]⟩
    · obtain ⟨b, hb⟩ := ih (fun a ha => hk a (List.mem_cons_of_mem _ ha))
        (fun _ => by rw [hlp]; rfl)
      exact ⟨b, by simp [Pref.deviates, hn, hlp, hm, hb]⟩

theorem Pref.deviates_false {net : Pref.Net} {leaf : String}
    {count : List (String × Nat)} {U : List String}
    (h : Pref.deviates net leaf count U = some false) :
    ∀ alt ∈ U, ∀ n, dlookup alt count = some n →
      ∀ lp, dlookup leaf net.preferences = some lp → (alt, n + 1) ∉ lp := by
  revert h
  induction U with
  | nil => intro _ alt ha; simp at ha
  | cons a rest ih =>
    intro h alt ha n hn lp hlp
    cases hm : dlookup a count with
    | none => simp [Pref.deviates, hm] at h
    | some m =>
      cases hlp2 : dlookup leaf net.preferences with
      | none => simp [Pref.deviates, hm, hlp2] at h
      | some lp2 =>
        simp only [Pref.deviates, hm, hlp2] at h
        by_cases hin : (a, m + 1) ∈ lp2
        · rw [if_pos hin] at h; simp at h
        · rw [if_neg hin] at h
          rcases List.mem_cons.mp ha with haa | har
          · subst haa
            rw [hm] at hn
            cases hn
            rw [hlp2] at hlp
            cases hlp
            exact hin
          · exact ih h alt har n hn lp hlp

theorem Pref.voidCheck_total (net : Pref.Net) (count : List (String × Nat))
    (U : List String) (A : List (String × String))
    (hk : ∀ alt ∈ U, (dlookup alt count).isSome)
    (hp : ∀ p ∈ A, (dlookup p.1 net.preferences).isSome) :
    ∃ b, Pref.voidCheck net count U A = some b := by
  revert hp
  induction A with
  | nil => exact fun _ => ⟨true, rfl⟩
  | cons p rest ih =>
    intro hp
    obtain ⟨leaf, act⟩ := p
    obtain ⟨b, hb⟩ := ih (fun q hq => hp q (List.mem_cons_of_mem _ hq))
    by_cases hv : act = Pref.void_activity
    · obtain ⟨d, hd⟩ := Pref.deviates_total net leaf count U hk
        (fun _ => hp _ (List.mem_cons_self _ _))
      cases d
      · exact ⟨b, by simp [Pref.voidCheck, hv, hd, hb]⟩
      · exact ⟨false, by simp [Pref.voidCheck, hv, hd]⟩
    · exact ⟨b, by simp [Pref.voidCheck, hv, hb]⟩

theorem Pref.voidCheck_true {net : Pref.Net} {count : List (String × Nat)}
    {U : List String} {A : List (String × String)}
    (h : Pref.voidCheck net count U A = some true) :
    ∀ p ∈ A, p.2 = Pref.void_activity →
      Pref.deviates net p.1 count U = some false := by
  revert h
  induction A with
  | nil => intro _ p hp; simp at hp
  | cons q rest ih =>
    intro h p hp hv
    obtain ⟨leaf, act⟩ := q
    simp only [Pref.voidCheck] at h
    by_cases hva : act = Pref.void_activity
    · rw [if_pos hva] at h
      cases hd : Pref.deviates net leaf count U with
      | none => rw [hd] at h; simp at h
      | some d =>
        rw [hd] at h
        cases d
        · rcases List.mem_cons.mp hp with hpq | hpr
          · subst hpq; exact hd
          · exact ih h p hpr hv
        · simp at h
    · rw [if_neg hva] at h
      rcases List.mem_cons.mp hp with hpq | hpr
      · subst hpq; exact absurd hv hva
      · exact ih h p hpr hv

/-! Assembly of the preference-style verifier -/

theorem Pref.stable_eq {net : Pref.Net} {ca : String × Nat} {U : List String}
    {A : List (String × String)} {count : List (String × Nat)}
    {cp : List (String × Nat)} {b1 b2 : Bool}
    (hcnt : countLoop A (Pref.initCounts U ca.1) = some count)
    (hcp : dlookup net.central_player net.preferences = some cp)
    (hlc : Pref.leafCheck net count A = some b1)
    (hvc : Pref.voidCheck net count U A = some b2) :
    Pref.is_assignment_stable net ca U A =
      some (decide ((ca.1, ca.2) ∈ cp) && b1 && b2) := by
  unfold Pref.is_assignment_stable
  simp only [hcnt, hcp]
  by_cases hm : (ca.1, ca.2) ∈ cp
  · cases b1 <;> cases b2 <;> simp [hm, hlc, hvc]
  · simp [hm]

theorem Pref.stable_true_parts {net : Pref.Net} {ca : String × Nat} {U : List String}
    {A : List (String × String)}
    (h : Pref.is_assignment_stable net ca U A = some true) :
    ∃ count cp, countLoop A (Pref.initCounts U ca.1) = some count ∧
      dlookup net.central_player net.preferences = some cp ∧ (ca.1, ca.2) ∈ cp ∧
      Pref.leafCheck net count A = some true ∧
      Pref.voidCheck net count U A = some true := by
  unfold Pref.is_assignment_stable at h
  cases hcnt : countLoop A (Pref.initCounts U ca.1) with
  | none => simp [hcnt] at h
  | some count =>
    simp only [hcnt] at h
    cases hcp : dlookup net.central_player net.preferences with
    | none => simp [hcp] at h
    | some cp =>
      simp only [hcp] at h
      by_cases hm : (ca.1, ca.2) ∈ cp
      · rw [if_neg (not_not_intro hm)] at h
        cases hlc : Pref.leafCheck net count A with
        | none => simp [hlc] at h
        | some b1 =>
          simp only [hlc] at h
          cases b1 with
          | false => simp at h
          | true =>
            cases hvc : Pref.voidCheck net count U A with
            | none => simp [hvc] at h
            | some b2 =>
              simp only [hvc] at h
              cases b2 with
              | false => simp at h
              | true => exact ⟨count, cp, rfl, rfl, hm, hlc, hvc⟩
      · rw [if_pos hm] at h
        simp at h

theorem Pref.stable_total (net : Pref.Net) (ca : String × Nat) (U : List String)
    (A : List (String × String))
    (hc : (dlookup net.central_player net.preferences).isSome)
    (hl : ∀ p ∈ A, (dlookup p.1 net.preferences).isSome)
    (ha : ∀ p ∈ A, p.2 ∈ U ∨ p.2 = Pref.void_activity) :
    ∃ b, Pref.is_assignment_stable net ca U A = some b := by
  have hinit : ∀ p ∈ A, (dlookup p.2 (Pref.initCounts U ca.1)).isSome := by
    intro p hp
    rw [Pref.initCounts_lookup]
    rcases ha p hp with h | h
    · simp [h]
    · simp [h]
  obtain ⟨count, hcnt⟩ := countLoop_total hinit
  obtain ⟨cp, hcp⟩ := Option.isSome_iff_exists.mp hc
  have hdom : ∀ x, (x ∈ U ∨ x = Pref.void_activity ∨ x = ca.1) →
      (dlookup x count).isSome := by
    intro x hx
    rw [Pref.count_lookup hcnt x, if_pos hx]
    rfl
  obtain ⟨b1, hlc⟩ := Pref.leafCheck_total net count A
    (fun p hp => hdom p.2 (by rcases ha p hp with h | h
                              · exact Or.inl h
                              · exact Or.inr (Or.inl h))) hl
  obtain ⟨b2, hvc⟩ := Pref.voidCheck_total net count U A
    (fun alt halt => hdom alt (Or.inl halt)) hl
  exact ⟨_, Pref.stable_eq hcnt hcp hlc hvc⟩

/-! The capacity-style verifier of `test.py` -/

theorem Cap.initCountsCap_lookup (U : List String) (k : String) :
    dlookup k (Cap.initCounts U) =
      if k ∈ U ∨ k = Cap.void_activity then some 0 else none := by
  unfold Cap.initCounts
  rw [dlookup_dictInsert0, dlookup_map_zero]
  split_ifs <;> simp_all

theorem Cap.countCap_lookup {U : List String} {A : List (String × String)}
    {count : List (String × Nat)}
    (h : countLoop A (Cap.initCounts U) = some count) (x : String) :
    dlookup x count =
      if x ∈ U ∨ x = Cap.void_activity then some (leavesOn x A) else none := by
  rw [countLoop_lookup h x, Cap.initCountsCap_lookup]
  by_cases hx : x ∈ U ∨ x = Cap.void_activity <;> simp [hx]

theorem Cap.uniqueCheck_total (count : List (String × Nat)) (ca : String)
    (U : List String) (hk : ∀ a ∈ U, (dlookup a count).isSome) :
    ∃ b, Cap.uniqueCheck count ca U = some b := by
  revert hk
  induction U with
  | nil => exact fun _ => ⟨true, rfl⟩
  | cons a rest ih =>
    intro hk
    obtain ⟨n, hn⟩ := Option.isSome_iff_exists.mp (hk _ (List.mem_cons_self _ _))
    obtain ⟨b, hb⟩ := ih (fun x hx => hk x (List.mem_cons_of_mem _ hx))
    by_cases hc : n ≠ 1 ∧ a ≠ ca
    · exact ⟨false, by simp [Cap.uniqueCheck, hn, hc]⟩
    · exact ⟨b, by simp [Cap.uniqueCheck, hn, hc, hb]⟩

theorem Cap.capDeviates_total (count : List (String × Nat)) (U : List String)
    (hk : ∀ a ∈ U, (dlookup a count).isSome) :
    ∃ b, Cap.capDeviates count U = some b := by
  revert hk
  induction U with
  | nil => exact fun _ => ⟨false, rfl⟩
  | cons a rest ih =>
    intro hk
    obtain ⟨b, hb⟩ := ih (fun x hx => hk x (List.mem_cons_of_mem _ hx))
    by_cases hv : a = Cap.void_activity
    · exact ⟨b, by simp [Cap.capDeviates, hv, hb]⟩
    · obtain ⟨n, hn⟩ := Option.isSome_iff_exists.mp (hk _ (List.mem_cons_self _ _))
      by_cases h2 : n < 2
      · exact ⟨true, by simp [Cap.capDeviates, hv, hn, h2]⟩
      · exact ⟨b, by simp [Cap.capDeviates, hv, hn, h2, hb]⟩

theorem Cap.capVoidCheck_total (count : List (String × Nat)) (U : List String)
    (A : List (String × String))
    (hk : ∀ a ∈ U, (dlookup a count).isSome) :
    ∃ b, Cap.capVoidCheck count U A = some b := by
  induction A with
  | nil => exact ⟨true, rfl⟩
  | cons p rest ih =>
    obtain ⟨leaf, act⟩ := p
    obtain ⟨b, hb⟩ := ih
    by_cases hv : act = Cap.void_activity
    · obtain ⟨d, hd⟩ := Cap.capDeviates_total count U hk
      cases d
      · exact ⟨b, by simp [Cap.capVoidCheck, hv, hd, hb]⟩
      · exact ⟨false, by simp [Cap.capVoidCheck, hv, hd]⟩
    · exact ⟨b, by simp [Cap.capVoidCheck, hv, hb]⟩

theorem Cap.stableCap_total (ca : String × Nat) (U : List String)
    (A : List (String × String))
    (hca : ca.1 ∈ U ∨ ca.1 = Cap.void_activity)
    (ha : ∀ p ∈ A, p.2 ∈ U ∨ p.2 = Cap.void_activity) :
    ∃ b, Cap.is_assignment_stable ca U A = some b := by
  have hinit : ∀ p ∈ A, (dlookup p.2 (Cap.initCounts U)).isSome := by
    intro p hp
    rw [Cap.initCountsCap_lookup, if_pos (ha p hp)]
    rfl
  obtain ⟨count, hcnt⟩ := countLoop_total hinit
  have hdom : ∀ x, (x ∈ U ∨ x = Cap.void_activity) → (dlookup x count).isSome := by
    intro x hx
    rw [Cap.countCap_lookup hcnt x, if_pos hx]
    rfl
  obtain ⟨n, hn⟩ := Option.isSome_iff_exists.mp (hdom ca.1 hca)
  obtain ⟨b1, hu⟩ := Cap.uniqueCheck_total count ca.1 U (fun a haU => hdom a (Or.inl haU))
  obtain ⟨b2, hv⟩ := Cap.capVoidCheck_total count U A (fun a haU => hdom a (Or.inl haU))
  unfold Cap.is_assignment_stable
  simp only [hcnt, hn]
  by_cases hne : n ≠ ca.2
  · exact ⟨false, by simp [hne]⟩
  · cases b1 with
    | false => exact ⟨false, by simp [hne, hu]⟩
    | true =>
      cases b2 with
      | false => exact ⟨false, by simp [hne, hu, hv]⟩
      | true => exact ⟨true, by simp [hne, hu, hv]⟩

theorem Cap.stable_true_center {ca : String × Nat} {U : List String}
    {A : List (String × String)}
    (h : Cap.is_assignment_stable ca U A = some true) :
    leavesOn ca.1 A = ca.2 := by
  unfold Cap.is_assignment_stable at h
  cases hcnt : countLoop A (Cap.initCounts U) with
  | none => simp [hcnt] at h
  | some count =>
    simp only [hcnt] at h
    cases hn : dlookup ca.1 count with
    | none => simp [hn] at h
    | some n =>
      simp only [hn] at h
      by_cases hne : n ≠ ca.2
      · rw [if_pos hne] at h; simp at h
      · have hcl := Cap.countCap_lookup hcnt ca.1
        rw [hn] at hcl
        by_cases hdom : ca.1 ∈ U ∨ ca.1 = Cap.void_activity
        · rw [if_pos hdom] at hcl
          have hv2 : n = leavesOn ca.1 A := Option.some.inj hcl
          have hv3 : n = ca.2 := not_not.mp hne
          omega
        · rw [if_neg hdom] at hcl
          exact absurd hcl (by simp)

/-! Claims -/

/-- Claim C1, counterexample.  The claim says every assignment accepted by the
stability verifier gives the center activity `a*` occupancy `k*`, counting the
leaves on `a*` plus one for the central player.  The preference-style verifier
accepts the hypothesis ("A", 5) with no leaf at all on "A" (the only leaf opts
out on void), so the occupancy of "A" is 0 + 1 = 1, not 5. -/
theorem c1_counterexample :
    Pref.is_assignment_stable netCenterFive ("A", 5) ["A"] [("l", "void")] = some true ∧
      leavesOn "A" [("l", "void")] + 1 ≠ 5 := by
  decide

/-- Claim C1, amended.  What the two verifiers actually guarantee about the
center hypothesis `(a*, k*)` of an accepted assignment: the preference-style
verifier (`main.py`) only checks that `(a*, k*)` is a member of the central
player's preference list and never compares `k*` with the occupancy of `a*`;
the capacity-style verifier (`test.py`) checks that the number of leaves
assigned to `a*` equals `k*` exactly (so occupancy including the central
player is `k* + 1`, not `k*`). -/
theorem c1_amended :
    (∀ (net : Pref.Net) (ca : String × Nat) (U : List String)
        (A : List (String × String)),
      Pref.is_assignment_stable net ca U A = some true →
        ∃ cp, dlookup net.central_player net.preferences = some cp ∧
          (ca.1, ca.2) ∈ cp) ∧
    (∀ (ca : String × Nat) (U : List String) (A : List (String × String)),
      Cap.is_assignment_stable ca U A = some true → leavesOn ca.1 A = ca.2) := by
  constructor
  · intro net ca U A h
    obtain ⟨count, cp, _, hcp, hm, _, _⟩ := Pref.stable_true_parts h
    exact ⟨cp, hcp, hm⟩
  · intro ca U A h
    exact Cap.stable_true_center h

/-- Claim C1, witness for the amended theorem at concrete inputs accepted by
each verifier. -/
theorem c1_witness :
    (∃ cp, dlookup "c" netSoloA.preferences = some cp ∧ (("A", 1) : String × Nat) ∈ cp) ∧
      leavesOn "A" [("l", "A")] = 1 :=
  ⟨c1_amended.1 netSoloA ("A", 1) ["A"] [("l", "A")] (by decide),
   c1_amended.2 ("A", 1) ["A"] [("l", "A")] (by decide)⟩

/-- Claim C2, counterexample.  The claim says both verifiers return a boolean
on every well-formed input, including when the center activity is not a member
of the activity subset.  The capacity-style verifier of `test.py` evaluates
`activity_count[center_activity]`, whose keys are only the subset and `void`,
so a center activity outside the subset raises a `KeyError` (modelled as
`none`): here `"A" ∉ ["B"]` and the call raises. -/
theorem c2_counterexample :
    Cap.is_assignment_stable ("A", 1) ["B"] [("l", "B")] = none ∧
      ("A" : String) ∉ (["B"] : List String) := by
  decide

/-- Claim C2, amended.  The preference-style verifier is total over
well-formed inputs (central player and every assigned leaf have a preference
entry; every leaf activity is in the subset or void) with no condition on the
center activity; the capacity-style verifier is total only under the extra
hypothesis that the center activity lies in the subset or is void. -/
theorem c2_amended :
    (∀ (net : Pref.Net) (ca : String × Nat) (U : List String)
        (A : List (String × String)),
      (dlookup net.central_player net.preferences).isSome →
      (∀ p ∈ A, (dlookup p.1 net.preferences).isSome) →
      (∀ p ∈ A, p.2 ∈ U ∨ p.2 = Pref.void_activity) →
        ∃ b, Pref.is_assignment_stable net ca U A = some b) ∧
    (∀ (ca : String × Nat) (U : List String) (A : List (String × String)),
      (ca.1 ∈ U ∨ ca.1 = Cap.void_activity) →
      (∀ p ∈ A, p.2 ∈ U ∨ p.2 = Cap.void_activity) →
        ∃ b, Cap.is_assignment_stable ca U A = some b) := by
  exact ⟨fun net ca U A hc hl ha => Pref.stable_total net ca U A hc hl ha,
         fun ca U A hca ha => Cap.stableCap_total ca U A hca ha⟩

/-- Claim C2, witness for the amended theorem: both verifiers return a boolean
at concrete well-formed inputs, the preference-style one with a center
activity that is indeed in the subset here. -/
theorem c2_witness :
    (∃ b, Pref.is_assignment_stable netCenterFive ("A", 5) ["A"] [("l", "void")] = some b) ∧
      ∃ b, Cap.is_assignment_stable ("A", 1) ["A"] [("l", "A")] = some b :=
  ⟨c2_amended.1 netCenterFive ("A", 5) ["A"] [("l", "void")]
      (by decide) (by decide) (by decide),
   c2_amended.2 ("A", 1) ["A"] [("l", "A")] (by decide) (by decide)⟩

/-- Claim C3, counterexample.  The claim says a leaf on a non-void activity
`x` is accepted only when `(x, c)` is in its preference list for `c` the
occupancy of `x` counting the central player when `x` is the center's own
activity.  Here leaf "l" sits on the center's activity "A": counting the
central player the occupancy is `leavesOn "A" + 1 = 2`, and ("A", 2) is not
in "l"'s preference list `[("A", 1)]`, yet the verifier accepts — the code
compares against the leaf-only count, never adding the central player. -/
theorem c3_counterexample :
    Pref.is_assignment_stable netSoloA ("A", 1) ["A"] [("l", "A")] = some true ∧
      dlookup "l" netSoloA.preferences = some [("A", 1)] ∧
      leavesOn "A" [("l", "A")] + 1 = 2 ∧
      (("A", 2) : String × Nat) ∉ ([("A", 1)] : List (String × Nat)) := by
  decide

/-- Every leaf of an accepted assignment that is not on void sits on a pair
(activity, leaf-count occupancy) of its own preference list. -/
theorem Pref.stable_leaf_sat {net : Pref.Net} {ca : String × Nat} {U : List String}
    {A : List (String × String)}
    (h : Pref.is_assignment_stable net ca U A = some true) :
    ∀ p ∈ A, p.2 ≠ Pref.void_activity →
      ∃ lp, dlookup p.1 net.preferences = some lp ∧ (p.2, leavesOn p.2 A) ∈ lp := by
  obtain ⟨count, cp, hcnt, _, _, hlc, _⟩ := Pref.stable_true_parts h
  intro p hp hv
  obtain ⟨lp, g, hlp, hg, hmem⟩ := Pref.leafCheck_true hlc p hp hv
  refine ⟨lp, hlp, ?_⟩
  rw [Pref.count_lookup hcnt p.2] at hg
  by_cases hd : p.2 ∈ U ∨ p.2 = Pref.void_activity ∨ p.2 = ca.1
  · rw [if_pos hd] at hg
    have hge : leavesOn p.2 A = g := Option.some.inj hg
    rw [hge]
    exact hmem
  · rw [if_neg hd] at hg
    exact absurd hg (by simp)

/-- Claim C3, amended.  In every assignment the preference-style verifier
accepts, every leaf is on void or on a pair (activity, occupancy) contained
in its preference list, where the occupancy is the number of leaves assigned
to that activity — the central player is never added to the count, even on
its own activity. -/
theorem c3_amended (net : Pref.Net) (ca : String × Nat) (U : List String)
    (A : List (String × String))
    (h : Pref.is_assignment_stable net ca U A = some true) :
    ∀ p ∈ A, p.2 ≠ Pref.void_activity →
      ∃ lp, dlookup p.1 net.preferences = some lp ∧ (p.2, leavesOn p.2 A) ∈ lp :=
  Pref.stable_leaf_sat h

/-- Claim C3, witness for the amended theorem at a concrete accepted
assignment. -/
theorem c3_witness :
    ∃ lp, dlookup "l" netSoloA.preferences = some lp ∧
      (("A", leavesOn "A" [("l", "A")]) : String × Nat) ∈ lp :=
  c3_amended netSoloA ("A", 1) ["A"] [("l", "A")] (by decide) ("l", "A")
    (by decide) (by decide)

/-- Claim C4, confirmed.  The preference-style verifier accepts no assignment
in which a void-assigned leaf has an available accepted deviation: whenever it
returns `some true`, no leaf on void has an activity `y` in the subset with
`(y, occupancy[y] + 1)` in its preference list (occupancy being the verifier's
leaf count); contrapositively any such assignment is rejected. -/
theorem c4_no_void_deviation (net : Pref.Net) (ca : String × Nat)
    (U : List String) (A : List (String × String))
    (h : Pref.is_assignment_stable net ca U A = some true) :
    ∀ p ∈ A, p.2 = Pref.void_activity → ∀ y ∈ U,
      ∀ lp, dlookup p.1 net.preferences = some lp →
        (y, leavesOn y A + 1) ∉ lp := by
  obtain ⟨count, cp, hcnt, _, _, _, hvc⟩ := Pref.stable_true_parts h
  intro p hp hv y hy lp hlp
  have hdev := Pref.voidCheck_true hvc p hp hv
  have hyc : dlookup y count = some (leavesOn y A) := by
    rw [Pref.count_lookup hcnt y, if_pos (Or.inl hy)]
  exact Pref.deviates_false hdev y hy (leavesOn y A) hyc lp hlp

/-- Claim C4, witness: at a concrete accepted assignment with a void leaf,
the leaf's preference list indeed contains no pair (subset activity,
occupancy + 1). -/
theorem c4_witness :
    (("A", leavesOn "A" [("l", "void")] + 1) : String × Nat) ∉
      ([] : List (String × Nat)) :=
  c4_no_void_deviation netCenterFive ("A", 5) ["A"] [("l", "void")] (by decide)
    ("l", "void") (by decide) (by decide) "A" (by decide) [] (by decide)

/-! Sampler lemmas -/

theorem Pref.mem_tuples {colours : List String} {n : Nat} {t : List String} :
    t ∈ Pref.tuples colours n ↔ t.length = n ∧ ∀ x ∈ t, x ∈ colours := by
  induction n generalizing t with
  | zero =>
    constructor
    · intro h
      simp [Pref.tuples] at h
      subst h
      simp
    · rintro ⟨h1, _⟩
      rw [List.length_eq_zero] at h1
      subst h1
      simp [Pref.tuples]
  | succ n ih =>
    constructor
    · intro h
      simp only [Pref.tuples, List.mem_flatMap, List.mem_map] at h
      obtain ⟨c, hc, t2, ht2, rfl⟩ := h
      obtain ⟨hlen, hmem⟩ := ih.mp ht2
      refine ⟨by simp [hlen], ?_⟩
      intro x hx
      rcases List.mem_cons.mp hx with rfl | hx2
      · exact hc
      · exact hmem x hx2
    · rintro ⟨hlen, hmem⟩
      cases t with
      | nil => simp at hlen
      | cons c t2 =>
        simp only [Pref.tuples, List.mem_flatMap, List.mem_map]
        refine ⟨c, hmem c (List.mem_cons_self _ _), t2, ?_, rfl⟩
        exact ih.mpr ⟨by simpa using hlen, fun x hx => hmem x (List.mem_cons_of_mem _ hx)⟩

theorem Pref.choiceFrom_mem {pc : List String} (h : pc ≠ []) (r : Nat) :
    Pref.choiceFrom pc r ∈ pc := by
  unfold Pref.choiceFrom
  have hlen : r % pc.length < pc.length := Nat.mod_lt _ (List.length_pos.mpr h)
  rw [List.getD_eq_getElem?_getD, List.getElem?_eq_getElem hlen]
  exact List.getElem_mem hlen

theorem Pref.possibleColours_ne_nil (U : List String) : Pref.possibleColours U ≠ [] := by
  simp [Pref.possibleColours]

theorem Pref.randomAssignment_eq_zip (pc : List String) (hpc : pc ≠ [])
    (pick : Nat → Nat) (leaves : List String) (i : Nat) :
    ∃ t ∈ Pref.tuples pc leaves.length,
      Pref.randomAssignment pc pick leaves i = leaves.zip t := by
  induction leaves generalizing i with
  | nil => exact ⟨[], by simp [Pref.tuples], rfl⟩
  | cons leaf rest ih =>
    obtain ⟨t, ht, heq⟩ := ih (i + 1)
    obtain ⟨hlen, hmem⟩ := Pref.mem_tuples.mp ht
    refine ⟨Pref.choiceFrom pc (pick i) :: t, ?_, ?_⟩
    · refine Pref.mem_tuples.mpr ⟨by simp [hlen], ?_⟩
      intro x hx
      rcases List.mem_cons.mp hx with rfl | hx2
      · exact Pref.choiceFrom_mem hpc (pick i)
      · exact hmem x hx2
    · simp [Pref.randomAssignment, heq, List.zip_cons_cons]

/-- Claim C7, confirmed.  Every leaf assignment the uniform random sampler
`random_colouring` can produce — for any behaviour of the random source,
modelled by the oracle `pick` — is an element of the list returned by the
exhaustive sampler `exhaustive_colouring` for the same activity subset. -/
theorem c7_random_subset_of_exhaustive (net : Pref.Net) (U : List String)
    (pick : Nat → Nat → Nat) (a : List (String × String))
    (h : a ∈ Pref.random_colouring net U pick) :
    a ∈ Pref.exhaustive_colouring net U := by
  simp only [Pref.random_colouring, List.mem_map] at h
  obtain ⟨tr, _, rfl⟩ := h
  obtain ⟨t, ht, heq⟩ := Pref.randomAssignment_eq_zip (Pref.possibleColours U)
    (Pref.possibleColours_ne_nil U) (pick tr) net.leaf_players 0
  rw [heq]
  exact List.mem_map_of_mem _ ht

/-- Claim C7, witness: a concrete sample of `random_colouring` found in the
exhaustive enumeration. -/
theorem c7_witness : [("l", "A")] ∈ Pref.exhaustive_colouring netSoloA ["A"] :=
  c7_random_subset_of_exhaustive netSoloA ["A"] (fun _ _ => 0) [("l", "A")]
    (by decide)

/-- Claim C8, counterexample.  The claim says the weight attached to a
filtered activity is the full preference-list length minus that entry's rank
in the full preference list.  For the list `[("A",1), ("B",1)]` and subset
`["B"]`, entry ("B",1) has rank 1 in the full list, so the claimed weight is
`2 - 1 = 1`; the code instead indexes by position in the filtered list and
assigns weight `2 - 0 = 2`. -/
theorem c8_counterexample :
    Pref.heuristicOptions [("A", 1), ("B", 1)] ["B"] = (["B", "void"], [2, 1]) ∧
      ([("A", 1), ("B", 1)] : List (String × Nat)).length -
        List.findIdx (fun q => decide (q = (("B", 1) : String × Nat)))
          [("A", 1), ("B", 1)] = 1 ∧
      (2 : Nat) ≠ 1 := by
  decide

/-- Claim C8, amended.  In `heuristic_colouring`, the weight of the activity
at position `j` of the leaf's filtered colour list is the full preference-list
length minus `j` — the index in the filtered list, not the rank in the full
list — and `void` is the final option with weight exactly 1, which is a lower
bound of every weight. -/
theorem c8_amended (lprefs : List (String × Nat)) (U : List String) :
    (Pref.heuristicOptions lprefs U).1.length = (Pref.heuristicOptions lprefs U).2.length ∧
    (∀ j, j + 1 < (Pref.heuristicOptions lprefs U).2.length →
      (Pref.heuristicOptions lprefs U).2[j]? = some (lprefs.length - j)) ∧
    (Pref.heuristicOptions lprefs U).2.getLast? = some 1 ∧
    ∀ w ∈ (Pref.heuristicOptions lprefs U).2, 1 ≤ w := by
  unfold Pref.heuristicOptions
  simp only
  set preferred := (lprefs.filter (fun p => decide (p.1 ∈ U))).map Prod.fst with hpref
  have hple : preferred.length ≤ lprefs.length := by
    rw [hpref, List.length_map]
    exact List.length_filter_le _ _
  have hwlen : ((List.range preferred.length).map (fun i => lprefs.length - i)).length =
      preferred.length := by simp
  refine ⟨by simp, ?_, ?_, ?_⟩
  · intro j hj
    simp only [List.length_append, hwlen, List.length_singleton] at hj
    have hjp : j < preferred.length := by omega
    rw [List.getElem?_append_left (by simp [hwlen, hjp]), List.getElem?_map]
    simp [List.getElem?_range hjp]
  · exact List.getLast?_concat _
  · intro w hw
    rcases List.mem_append.mp hw with hw1 | hw2
    · simp only [List.mem_map, List.mem_range] at hw1
      obtain ⟨i, hi, rfl⟩ := hw1
      omega
    · simp at hw2
      omega

/-- Claim C8, witness for the amended theorem: the first filtered option of a
concrete leaf carries weight `length - 0`. -/
theorem c8_witness :
    (Pref.heuristicOptions [("A", 2), ("B", 1)] ["A", "B"]).2[0]? =
      some (([("A", 2), ("B", 1)] : List (String × Nat)).length - 0) :=
  (c8_amended [("A", 2), ("B", 1)] ["A", "B"]).2.1 0 (by decide)

theorem Pref.trialsLoop_total (P : List (String × String) → Prop)
    (f : Nat → Option (List (String × String))) (ts : List Nat)
    (h : ∀ t ∈ ts, ∃ a, f t = some a ∧ P a) :
    ∃ as, Pref.trialsLoop f ts = some as ∧ ∀ a ∈ as, P a := by
  induction ts with
  | nil => exact ⟨[], rfl, by simp⟩
  | cons t rest ih =>
    obtain ⟨a, ha, hpa⟩ := h t (List.mem_cons_self _ _)
    obtain ⟨as, has, hPs⟩ := ih (fun q hq => h q (List.mem_cons_of_mem _ hq))
    refine ⟨a :: as, by simp [Pref.trialsLoop, ha, has], ?_⟩
    intro x hx
    rcases List.mem_cons.mp hx with rfl | hx2
    · exact hpa
    · exact hPs x hx2

theorem Pref.randomOptiAssignment_props (net : Pref.Net) (U : List String)
    (pick : Nat → Nat) (leaves : List String) (i : Nat)
    (hl : ∀ leaf ∈ leaves, (dlookup leaf net.preferences).isSome) :
    ∃ a, Pref.randomOptiAssignment net U pick leaves i = some a ∧
      a.map Prod.fst = leaves ∧
      ∀ p ∈ a, ∀ lp, dlookup p.1 net.preferences = some lp →
        lp.filter (fun q => decide (q.1 ∈ U)) = [] → p.2 = Pref.void_activity := by
  revert hl
  induction leaves generalizing i with
  | nil => exact fun _ => ⟨[], rfl, rfl, by simp⟩
  | cons leaf rest ih =>
    intro hl
    obtain ⟨lp, hlp⟩ := Option.isSome_iff_exists.mp (hl leaf (List.mem_cons_self _ _))
    obtain ⟨a, ha, hkeys, hvoid⟩ := ih (i + 1) (fun q hq => hl q (List.mem_cons_of_mem _ hq))
    refine ⟨(leaf, Pref.choiceFrom (Pref.filteredColours lp U) (pick i)) :: a,
      by simp [Pref.randomOptiAssignment, hlp, ha], by simp [hkeys], ?_⟩
    intro p hp lp2 hlp2 hfilt
    rcases List.mem_cons.mp hp with rfl | hp2
    · simp only at hlp2
      rw [hlp] at hlp2
      have hlpe : lp = lp2 := Option.some.inj hlp2
      subst hlpe
      simp [Pref.filteredColours, hfilt, Pref.choiceFrom, Nat.mod_one]
    · exact hvoid p hp2 lp2 hlp2 hfilt

theorem Pref.heuristicAssignment_props (net : Pref.Net) (U : List String)
    (pick : Nat → Nat) (leaves : List String) (i : Nat)
    (hl : ∀ leaf ∈ leaves, (dlookup leaf net.preferences).isSome) :
    ∃ a, Pref.heuristicAssignment net U pick leaves i = some a ∧
      a.map Prod.fst = leaves ∧
      ∀ p ∈ a, ∀ lp, dlookup p.1 net.preferences = some lp →
        lp.filter (fun q => decide (q.1 ∈ U)) = [] → p.2 = Pref.void_activity := by
  revert hl
  induction leaves generalizing i with
  | nil => exact fun _ => ⟨[], rfl, rfl, by simp⟩
  | cons leaf rest ih =>
    intro hl
    obtain ⟨lp, hlp⟩ := Option.isSome_iff_exists.mp (hl leaf (List.mem_cons_self _ _))
    obtain ⟨a, ha, hkeys, hvoid⟩ := ih (i + 1) (fun q hq => hl q (List.mem_cons_of_mem _ hq))
    refine ⟨(leaf, Pref.pickWeighted (Pref.heuristicOptions lp U).1
        (Pref.heuristicOptions lp U).2
        (pick i % (Pref.heuristicOptions lp U).2.sum)) :: a,
      by simp [Pref.heuristicAssignment, hlp, ha], by simp [hkeys], ?_⟩
    intro p hp lp2 hlp2 hfilt
    rcases List.mem_cons.mp hp with rfl | hp2
    · simp only at hlp2
      rw [hlp] at hlp2
      have hlpe : lp = lp2 := Option.some.inj hlp2
      subst hlpe
      simp [Pref.heuristicOptions, hfilt, Pref.pickWeighted, Nat.mod_one]
    · exact hvoid p hp2 lp2 hlp2 hfilt

/-- Claim C9, confirmed.  When every leaf has a preference entry, the
preference-filtered random sampler and the weighted sampler never raise: they
return a batch in which every assignment covers exactly the leaf players in
order, and any leaf whose preference list shares no activity with the subset
(empty filtered list) is assigned void. -/
theorem c9_empty_filter_void (net : Pref.Net) (U : List String)
    (pick : Nat → Nat → Nat) (num_samples : Nat)
    (hl : ∀ leaf ∈ net.leaf_players, (dlookup leaf net.preferences).isSome) :
    (∃ as, Pref.random_colouring_opti net U pick num_samples = some as ∧
      ∀ a ∈ as, a.map Prod.fst = net.leaf_players ∧
        ∀ p ∈ a, ∀ lp, dlookup p.1 net.preferences = some lp →
          lp.filter (fun q => decide (q.1 ∈ U)) = [] → p.2 = Pref.void_activity) ∧
    (∃ as, Pref.heuristic_colouring net U pick num_samples = some as ∧
      ∀ a ∈ as, a.map Prod.fst = net.leaf_players ∧
        ∀ p ∈ a, ∀ lp, dlookup p.1 net.preferences = some lp →
          lp.filter (fun q => decide (q.1 ∈ U)) = [] → p.2 = Pref.void_activity) := by
  constructor
  · exact Pref.trialsLoop_total _ _ _
      (fun t _ => Pref.randomOptiAssignment_props net U (pick t) net.leaf_players 0 hl)
  · exact Pref.trialsLoop_total _ _ _
      (fun t _ => Pref.heuristicAssignment_props net U (pick t) net.leaf_players 0 hl)

/-- Claim C9, witness at a network whose leaf has an empty filtered colour
list for the subset ["A"]. -/
theorem c9_witness :
    (∃ as, Pref.random_colouring_opti netNoOverlap ["A"] (fun _ _ => 0) 1 = some as ∧
      ∀ a ∈ as, a.map Prod.fst = netNoOverlap.leaf_players ∧
        ∀ p ∈ a, ∀ lp, dlookup p.1 netNoOverlap.preferences = some lp →
          lp.filter (fun q => decide (q.1 ∈ (["A"] : List String))) = [] →
            p.2 = Pref.void_activity) ∧
    (∃ as, Pref.heuristic_colouring netNoOverlap ["A"] (fun _ _ => 0) 1 = some as ∧
      ∀ a ∈ as, a.map Prod.fst = netNoOverlap.leaf_players ∧
        ∀ p ∈ a, ∀ lp, dlookup p.1 netNoOverlap.preferences = some lp →
          lp.filter (fun q => decide (q.1 ∈ (["A"] : List String))) = [] →
            p.2 = Pref.void_activity) :=
  c9_empty_filter_void netNoOverlap ["A"] (fun _ _ => 0) 1 (by decide)

/-! The find-one search -/

theorem Pref.mem_randomAssignment {pc : List String} (hpc : pc ≠ [])
    {pick : Nat → Nat} {leaves : List String} {i : Nat} {p : String × String}
    (hp : p ∈ Pref.randomAssignment pc pick leaves i) :
    p.1 ∈ leaves ∧ p.2 ∈ pc := by
  obtain ⟨t, ht, heq⟩ := Pref.randomAssignment_eq_zip pc hpc pick leaves i
  rw [heq] at hp
  obtain ⟨h1, h2⟩ := List.of_mem_zip hp
  exact ⟨h1, (Pref.mem_tuples.mp ht).2 _ h2⟩

theorem Pref.firstStable_spec (net : Pref.Net) (ca : String × Nat)
    (U : List String) (cols : List (List (String × String)))
    (htot : ∀ col ∈ cols, ∃ b, Pref.is_assignment_stable net ca U col = some b) :
    Pref.firstStable net ca U cols =
      some ((cols.find?
          (fun col => Pref.is_assignment_stable net ca U col == some true)).map
        (fun col => Pref.extendAssignment col net.central_player ca.1)) := by
  induction cols with
  | nil => simp [Pref.firstStable]
  | cons col rest ih =>
    obtain ⟨b, hb⟩ := htot col (List.mem_cons_self _ _)
    cases b with
    | true =>
      rw [List.find?_cons_of_pos _ (by simp [hb])]
      simp [Pref.firstStable, hb]
    | false =>
      rw [List.find?_cons_of_neg _ (by simp [hb])]
      rw [← ih (fun c hc => htot c (List.mem_cons_of_mem _ hc))]
      simp [Pref.firstStable, hb]

theorem Pref.findLoop_spec (net : Pref.Net) (U : List String)
    (pick : Nat → Nat → Nat → Nat) (guesses : List (String × Nat)) (idx : Nat)
    (htot : ∀ ca ∈ guesses, ∀ j, ∀ col ∈ Pref.random_colouring net U (pick j),
      ∃ b, Pref.is_assignment_stable net ca U col = some b) :
    Pref.findLoop net U pick guesses idx =
      some ((((List.enumFrom idx guesses).flatMap (fun q =>
            (Pref.random_colouring net U (pick q.1)).map (fun col => (q.2, col)))).find?
          (fun q => Pref.is_assignment_stable net q.1 U q.2 == some true)).map
        (fun q => Pref.extendAssignment q.2 net.central_player q.1.1)) := by
  induction guesses generalizing idx with
  | nil => simp [Pref.findLoop]
  | cons ca rest ih =>
    have hfs := Pref.firstStable_spec net ca U (Pref.random_colouring net U (pick idx))
      (fun col hc => htot ca (List.mem_cons_self _ _) idx col hc)
    have hstream : (List.enumFrom idx (ca :: rest)).flatMap (fun q =>
        (Pref.random_colouring net U (pick q.1)).map (fun col => (q.2, col))) =
        ((Pref.random_colouring net U (pick idx)).map (fun col => (ca, col))) ++
          (List.enumFrom (idx + 1) rest).flatMap (fun q =>
            (Pref.random_colouring net U (pick q.1)).map (fun col => (q.2, col))) := by
      rfl
    rw [hstream, List.find?_append, List.find?_map]
    cases hf : (Pref.random_colouring net U (pick idx)).find?
        (fun col => Pref.is_assignment_stable net ca U col == some true) with
    | some col0 =>
      have hfc : ((Pref.random_colouring net U (pick idx)).find?
          ((fun q => Pref.is_assignment_stable net q.1 U q.2 == some true) ∘
            (fun col => ((ca, col) : (String × Nat) × List (String × String))))) =
          some col0 := by
        rw [← hf]
        rfl
      rw [hf] at hfs
      simp only [Pref.findLoop, hfs, hfc, Option.map_some]
      simp [Option.or]
    | none =>
      have hfc : ((Pref.random_colouring net U (pick idx)).find?
          ((fun q => Pref.is_assignment_stable net q.1 U q.2 == some true) ∘
            (fun col => ((ca, col) : (String × Nat) × List (String × String))))) =
          none := by
        rw [← hf]
        rfl
      rw [hf] at hfs
      simp only [Pref.findLoop, hfs, hfc, Option.map_none]
      rw [ih (idx + 1) (fun c hc => htot c (List.mem_cons_of_mem _ hc))]
      rfl

/-- Claim C5, confirmed.  `find_nash_stable_assignment` iterates the central
player's preference list in declared order as center hypotheses, uses the set
of activities of that list as the single activity subset, samples with the
uniform random sampler `random_colouring`, and returns the first sampled
colouring the verifier accepts, extended with the central player mapped to
`a*`; when every hypothesis and sample is exhausted the result is the Python
`None` sentinel (`some none` here), not an exception. -/
theorem c5_find_one (net : Pref.Net) (pick : Nat → Nat → Nat → Nat)
    (cp : List (String × Nat))
    (hc : dlookup net.central_player net.preferences = some cp)
    (hl : ∀ leaf ∈ net.leaf_players, (dlookup leaf net.preferences).isSome) :
    Pref.find_nash_stable_assignment net pick =
      some ((((List.enum cp).flatMap (fun q =>
            (Pref.random_colouring net ((cp.map Prod.fst).dedup) (pick q.1)).map
              (fun col => (q.2, col)))).find?
          (fun q => Pref.is_assignment_stable net q.1 ((cp.map Prod.fst).dedup) q.2
            == some true)).map
        (fun q => Pref.extendAssignment q.2 net.central_player q.1.1)) := by
  have htot : ∀ ca ∈ cp, ∀ j,
      ∀ col ∈ Pref.random_colouring net ((cp.map Prod.fst).dedup) (pick j),
        ∃ b, Pref.is_assignment_stable net ca ((cp.map Prod.fst).dedup) col = some b := by
    intro ca _ j col hcol
    simp only [Pref.random_colouring, List.mem_map] at hcol
    obtain ⟨t, _, rfl⟩ := hcol
    apply Pref.stable_total
    · rw [hc]; rfl
    · intro p hp
      exact hl p.1 (Pref.mem_randomAssignment (Pref.possibleColours_ne_nil _) hp).1
    · intro p hp
      have hm := (Pref.mem_randomAssignment (Pref.possibleColours_ne_nil _) hp).2
      simpa [Pref.possibleColours] using hm
  unfold Pref.find_nash_stable_assignment
  simp only [hc]
  have hg : Pref.guess_center_assignment net = cp := by
    simp [Pref.guess_center_assignment, hc]
  rw [hg, Pref.findLoop_spec net ((cp.map Prod.fst).dedup) pick cp 0 htot]
  rfl

/-- Claim C5, witness: at a concrete network the find-one search returns the
first accepted sample extended with the central player. -/
theorem c5_witness :
    Pref.find_nash_stable_assignment netSoloA pickZero =
      some (some [("l", "A"), ("c", "A")]) :=
  (c5_find_one netSoloA pickZero [("A", 1)] (by decide) (by decide)).trans (by decide)

/-! The find-all search -/

theorem Pref.mem_exhaustive_colouring {net : Pref.Net} {U : List String}
    {col : List (String × String)} (h : col ∈ Pref.exhaustive_colouring net U) :
    ∀ p ∈ col, p.1 ∈ net.leaf_players ∧ (p.2 ∈ U ∨ p.2 = Pref.void_activity) := by
  simp only [Pref.exhaustive_colouring, List.mem_map] at h
  obtain ⟨t, ht, rfl⟩ := h
  intro p hp
  obtain ⟨h1, h2⟩ := List.of_mem_zip hp
  have h3 := (Pref.mem_tuples.mp ht).2 _ h2
  refine ⟨h1, ?_⟩
  simpa [Pref.possibleColours] using h3

theorem Pref.collectStable_spec (net : Pref.Net) (ca : String × Nat)
    (U : List String) (cols : List (List (String × String)))
    (htot : ∀ col ∈ cols, ∃ b, Pref.is_assignment_stable net ca U col = some b) :
    Pref.collectStable net ca U cols =
      some ((cols.filter
          (fun col => Pref.is_assignment_stable net ca U col == some true)).map
        (fun col => Pref.extendAssignment col net.central_player ca.1)) := by
  induction cols with
  | nil => simp [Pref.collectStable]
  | cons col rest ih =>
    obtain ⟨b, hb⟩ := htot col (List.mem_cons_self _ _)
    have hrest := ih (fun c hc => htot c (List.mem_cons_of_mem _ hc))
    cases b with
    | true =>
      rw [List.filter_cons_of_pos (by simp [hb])]
      simp [Pref.collectStable, hb, hrest]
    | false =>
      rw [List.filter_cons_of_neg (by simp [hb])]
      simp [Pref.collectStable, hb, hrest]

theorem Pref.findAllLoop_spec (net : Pref.Net) (U : List String)
    (guesses : List (String × Nat))
    (htot : ∀ ca ∈ guesses, ∀ col ∈ Pref.exhaustive_colouring net U,
      ∃ b, Pref.is_assignment_stable net ca U col = some b) :
    Pref.findAllLoop net U guesses =
      some (guesses.flatMap (fun ca =>
        ((Pref.exhaustive_colouring net U).filter
            (fun col => Pref.is_assignment_stable net ca U col == some true)).map
          (fun col => Pref.extendAssignment col net.central_player ca.1))) := by
  induction guesses with
  | nil => simp [Pref.findAllLoop]
  | cons ca rest ih =>
    have hcs := Pref.collectStable_spec net ca U (Pref.exhaustive_colouring net U)
      (fun c hc => htot ca (List.mem_cons_self _ _) c hc)
    have hrest := ih (fun c hc => htot c (List.mem_cons_of_mem _ hc))
    simp [Pref.findAllLoop, hcs, hrest]

/-- Claim C6, counterexample.  The claim says the find-all search enumerates,
per leaf, the preference-filtered colour lists.  The code calls the
unfiltered `exhaustive_colouring`; at this network the two enumerations visit
the leaf's colours in different orders ("A" before "B" unfiltered, "B" before
"A" in the leaf's preference order), so the returned sequence of the real
function differs from the preference-filtered variant's. -/
theorem c6_counterexample :
    Pref.find_all_nash_stable_assignments netTwoAct =
      some [[("l", "A"), ("c", "A")], [("l", "B"), ("c", "A")],
            [("l", "A"), ("c", "B")], [("l", "B"), ("c", "B")]] ∧
    Pref.find_all_nash_stable_assignments_opti netTwoAct =
      some [[("l", "B"), ("c", "A")], [("l", "A"), ("c", "A")],
            [("l", "B"), ("c", "B")], [("l", "A"), ("c", "B")]] ∧
    Pref.find_all_nash_stable_assignments netTwoAct ≠
      Pref.find_all_nash_stable_assignments_opti netTwoAct := by
  decide

/-- Claim C6, amended.  `find_all_nash_stable_assignments` enumerates, for
each center hypothesis in the central player's preference order, the
exhaustive Cartesian product over the UNFILTERED full colour list per leaf
(`exhaustive_colouring`, not the preference-filtered
`exhaustive_colouring_opti`), and accumulates every assignment the verifier
accepts, extended with the central player, into the returned sequence in
enumeration order (possibly empty). -/
theorem c6_find_all (net : Pref.Net) (cp : List (String × Nat))
    (hc : dlookup net.central_player net.preferences = some cp)
    (hl : ∀ leaf ∈ net.leaf_players, (dlookup leaf net.preferences).isSome) :
    Pref.find_all_nash_stable_assignments net =
      some (cp.flatMap (fun ca =>
        ((Pref.exhaustive_colouring net ((cp.map Prod.fst).dedup)).filter
            (fun col => Pref.is_assignment_stable net ca ((cp.map Prod.fst).dedup) col
              == some true)).map
          (fun col => Pref.extendAssignment col net.central_player ca.1))) := by
  have htot : ∀ ca ∈ cp, ∀ col ∈ Pref.exhaustive_colouring net ((cp.map Prod.fst).dedup),
      ∃ b, Pref.is_assignment_stable net ca ((cp.map Prod.fst).dedup) col = some b := by
    intro ca _ col hcol
    apply Pref.stable_total
    · rw [hc]; rfl
    · exact fun p hp => hl p.1 (Pref.mem_exhaustive_colouring hcol p hp).1
    · exact fun p hp => (Pref.mem_exhaustive_colouring hcol p hp).2
  unfold Pref.find_all_nash_stable_assignments
  simp only [hc]
  have hg : Pref.guess_center_assignment net = cp := by
    simp [Pref.guess_center_assignment, hc]
  rw [hg, Pref.findAllLoop_spec net ((cp.map Prod.fst).dedup) cp htot]

/-- Claim C6, witness: the amended equation evaluated at a concrete network. -/
theorem c6_witness :
    Pref.find_all_nash_stable_assignments netSoloA = some [[("l", "A"), ("c", "A")]] :=
  (c6_find_all netSoloA [("A", 1)] (by decide) (by decide)).trans (by decide)

/-! Equivalence of the unfiltered and preference-filtered find-all -/

theorem Pref.mem_filteredColours {lp : List (String × Nat)} {U : List String}
    {x : String} :
    x ∈ Pref.filteredColours lp U ↔
      ((∃ q ∈ lp, q.1 = x ∧ x ∈ U) ∨ x = Pref.void_activity) := by
  unfold Pref.filteredColours
  rw [List.mem_append]
  simp only [List.mem_map, List.mem_filter, List.mem_singleton, decide_eq_true_eq]
  constructor
  · rintro (⟨q, ⟨hq, hU⟩, rfl⟩ | h)
    · exact Or.inl ⟨q, hq, rfl, hU⟩
    · exact Or.inr h
  · rintro (⟨q, hq, rfl, hU⟩ | h)
    · exact Or.inl ⟨q, ⟨hq, hU⟩, rfl⟩
    · exact Or.inr h

theorem Pref.filteredColours_sub {lp : List (String × Nat)} {U : List String} :
    ∀ x ∈ Pref.filteredColours lp U, x ∈ Pref.possibleColours U := by
  intro x hx
  rcases Pref.mem_filteredColours.mp hx with ⟨q, _, rfl, hU⟩ | rfl
  · simp [Pref.possibleColours, hU]
  · simp [Pref.possibleColours]

theorem Pref.mem_productL {os : List (List String)} {t : List String} :
    t ∈ Pref.productL os ↔ List.Forall₂ (fun c opts => c ∈ opts) t os := by
  induction os generalizing t with
  | nil => simp [Pref.productL, List.forall₂_nil_right_iff]
  | cons opts rest ih =>
    simp only [Pref.productL, List.mem_flatMap, List.mem_map]
    constructor
    · rintro ⟨c, hc, t2, ht2, rfl⟩
      exact List.Forall₂.cons hc (ih.mp ht2)
    · intro h
      cases h with
      | cons hc ht2 => exact ⟨_, hc, _, ih.mpr ht2, rfl⟩

theorem Pref.allOptions_spec (net : Pref.Net) (U : List String) (leaves : List String)
    (hl : ∀ leaf ∈ leaves, (dlookup leaf net.preferences).isSome) :
    ∃ os, Pref.allOptions net U leaves = some os ∧
      List.Forall₂ (fun leaf opts => ∃ lp, dlookup leaf net.preferences = some lp ∧
        opts = Pref.filteredColours lp U) leaves os := by
  revert hl
  induction leaves with
  | nil => exact fun _ => ⟨[], rfl, List.Forall₂.nil⟩
  | cons leaf rest ih =>
    intro hl
    obtain ⟨lp, hlp⟩ := Option.isSome_iff_exists.mp (hl leaf (List.mem_cons_self _ _))
    obtain ⟨os, hos, hF⟩ := ih (fun q hq => hl q (List.mem_cons_of_mem _ hq))
    exact ⟨Pref.filteredColours lp U :: os, by simp [Pref.allOptions, hlp, hos],
      List.Forall₂.cons ⟨lp, hlp, rfl⟩ hF⟩

theorem Pref.forall2_right_exists {α β : Type} {R : α → β → Prop}
    {l1 : List α} {l2 : List β} (h : List.Forall₂ R l1 l2) :
    ∀ b ∈ l2, ∃ a, R a b := by
  induction h with
  | nil => intro b hb; simp at hb
  | cons hr hF ih =>
    intro b hb
    rcases List.mem_cons.mp hb with rfl | hb2
    · exact ⟨_, hr⟩
    · exact ih b hb2

theorem Pref.forall2_mem_trans {pc : List String} {t : List String}
    {os : List (List String)}
    (h : List.Forall₂ (fun c opts => c ∈ opts) t os) :
    (∀ opts ∈ os, ∀ x ∈ opts, x ∈ pc) → ∀ x ∈ t, x ∈ pc := by
  induction h with
  | nil => intro _ x hx; simp at hx
  | cons hr hF ih =>
    intro hsub x hx
    rcases List.mem_cons.mp hx with rfl | hx2
    · exact hsub _ (List.mem_cons_self _ _) _ hr
    · exact ih (fun o ho => hsub o (List.mem_cons_of_mem _ ho)) x hx2

theorem Pref.forall2_mem_options (net : Pref.Net) (U : List String)
    (col : List (String × String))
    (hsat : ∀ q ∈ col, q.2 ≠ Pref.void_activity →
      ∃ lp, dlookup q.1 net.preferences = some lp ∧ (q.2, leavesOn q.2 col) ∈ lp)
    {leaves2 : List String} {os2 : List (List String)}
    (hF : List.Forall₂ (fun leaf opts => ∃ lp, dlookup leaf net.preferences = some lp ∧
      opts = Pref.filteredColours lp U) leaves2 os2) :
    ∀ t2 : List String, t2.length = leaves2.length →
      (∀ x ∈ t2, x ∈ Pref.possibleColours U) →
      (∀ q ∈ leaves2.zip t2, q ∈ col) →
      List.Forall₂ (fun c opts => c ∈ opts) t2 os2 := by
  induction hF with
  | nil =>
    intro t2 hlen _ _
    rw [List.length_eq_zero.mp hlen]
    exact List.Forall₂.nil
  | @cons leaf opts l2 osr hrel hF2 ih =>
    intro t2 hlen hx hsub
    cases t2 with
    | nil => simp at hlen
    | cons c t2 =>
      obtain ⟨lp, hlp, rfl⟩ := hrel
      have hhead : (leaf, c) ∈ col := by
        refine hsub (leaf, c) ?_
        rw [List.zip_cons_cons]
        exact List.mem_cons_self _ _
      refine List.Forall₂.cons ?_ (ih t2 (by simpa using hlen)
        (fun x hx2 => hx x (List.mem_cons_of_mem _ hx2))
        (fun q hq => hsub q (by rw [List.zip_cons_cons]; exact List.mem_cons_of_mem _ hq)))
      by_cases hv : c = Pref.void_activity
      · exact Pref.mem_filteredColours.mpr (Or.inr hv)
      · obtain ⟨lp2, hlp2, hmem⟩ := hsat (leaf, c) hhead hv
        rw [hlp] at hlp2
        have hlpe : lp = lp2 := Option.some.inj hlp2
        subst hlpe
        have hcU : c ∈ U := by
          have h2 : c ∈ U ∨ c = Pref.void_activity := by
            simpa [Pref.possibleColours] using hx c (List.mem_cons_self _ _)
          rcases h2 with h2 | h2
          · exact h2
          · exact absurd h2 hv
        exact Pref.mem_filteredColours.mpr
          (Or.inl ⟨(c, leavesOn c col), hmem, rfl, hcU⟩)

theorem Pref.accepted_mem_opti (net : Pref.Net) (ca : String × Nat) (U : List String)
    {col : List (String × String)} {os : List (List String)}
    (hosF : List.Forall₂ (fun leaf opts => ∃ lp, dlookup leaf net.preferences = some lp ∧
      opts = Pref.filteredColours lp U) net.leaf_players os)
    (hcol : col ∈ Pref.exhaustive_colouring net U)
    (hacc : Pref.is_assignment_stable net ca U col = some true) :
    col ∈ (Pref.productL os).map (fun t => net.leaf_players.zip t) := by
  simp only [Pref.exhaustive_colouring, List.mem_map] at hcol
  obtain ⟨t, ht, rfl⟩ := hcol
  obtain ⟨hlen, hmem⟩ := Pref.mem_tuples.mp ht
  have hF := Pref.forall2_mem_options net U (net.leaf_players.zip t)
    (Pref.stable_leaf_sat hacc) hosF t hlen hmem (fun q hq => hq)
  exact List.mem_map_of_mem _ (Pref.mem_productL.mpr hF)

theorem Pref.opti_mem_exhaustive (net : Pref.Net) (U : List String)
    {col : List (String × String)} {os : List (List String)}
    (hosF : List.Forall₂ (fun leaf opts => ∃ lp, dlookup leaf net.preferences = some lp ∧
      opts = Pref.filteredColours lp U) net.leaf_players os)
    (hcol : col ∈ (Pref.productL os).map (fun t => net.leaf_players.zip t)) :
    col ∈ Pref.exhaustive_colouring net U := by
  simp only [List.mem_map] at hcol
  obtain ⟨t, ht, rfl⟩ := hcol
  have hF := Pref.mem_productL.mp ht
  have hlen : t.length = net.leaf_players.length := by
    rw [List.Forall₂.length_eq hF, ← List.Forall₂.length_eq hosF]
  have hmem : ∀ x ∈ t, x ∈ Pref.possibleColours U := by
    refine Pref.forall2_mem_trans hF ?_
    intro opts ho x hx
    obtain ⟨leaf, lp, _, rfl⟩ := Pref.forall2_right_exists hosF opts ho
    exact Pref.filteredColours_sub x hx
  exact List.mem_map_of_mem _ (Pref.mem_tuples.mpr ⟨hlen, hmem⟩)

theorem Pref.findAllLoopOpti_spec (net : Pref.Net) (U : List String)
    (guesses : List (String × Nat)) (cols : List (List (String × String)))
    (hopti : Pref.exhaustive_colouring_opti net U = some cols)
    (htot : ∀ ca ∈ guesses, ∀ col ∈ cols,
      ∃ b, Pref.is_assignment_stable net ca U col = some b) :
    Pref.findAllLoopOpti net U guesses =
      some (guesses.flatMap (fun ca =>
        (cols.filter (fun col => Pref.is_assignment_stable net ca U col == some true)).map
          (fun col => Pref.extendAssignment col net.central_player ca.1))) := by
  induction guesses with
  | nil => simp [Pref.findAllLoopOpti]
  | cons ca rest ih =>
    have hcs := Pref.collectStable_spec net ca U cols
      (fun c hc => htot ca (List.mem_cons_self _ _) c hc)
    have hrest := ih (fun c hc => htot c (List.mem_cons_of_mem _ hc))
    simp [Pref.findAllLoopOpti, hopti, hcs, hrest]

/-- Claim C10, confirmed.  Substituting the preference-filtered exhaustive
sampler `exhaustive_colouring_opti` for the unfiltered `exhaustive_colouring`
inside the find-all search leaves the set of stable assignments unchanged:
every colouring the verifier accepts places each non-void leaf on an activity
of its own preference list inside the active subset, so it occurs in both
enumerations; both searches return normally and their result lists have
exactly the same elements. -/
theorem c10_opti_same_results (net : Pref.Net) (cp : List (String × Nat))
    (hc : dlookup net.central_player net.preferences = some cp)
    (hl : ∀ leaf ∈ net.leaf_players, (dlookup leaf net.preferences).isSome) :
    ∃ r1 r2, Pref.find_all_nash_stable_assignments net = some r1 ∧
      Pref.find_all_nash_stable_assignments_opti net = some r2 ∧
      ∀ a, a ∈ r1 ↔ a ∈ r2 := by
  obtain ⟨os, hos, hosF⟩ :=
    Pref.allOptions_spec net ((cp.map Prod.fst).dedup) net.leaf_players hl
  have hopti : Pref.exhaustive_colouring_opti net ((cp.map Prod.fst).dedup) =
      some ((Pref.productL os).map (fun t => net.leaf_players.zip t)) := by
    simp [Pref.exhaustive_colouring_opti, hos]
  have htotE : ∀ ca ∈ cp,
      ∀ col ∈ Pref.exhaustive_colouring net ((cp.map Prod.fst).dedup),
        ∃ b, Pref.is_assignment_stable net ca ((cp.map Prod.fst).dedup) col = some b := by
    intro ca _ col hcol
    apply Pref.stable_total
    · rw [hc]; rfl
    · exact fun p hp => hl p.1 (Pref.mem_exhaustive_colouring hcol p hp).1
    · exact fun p hp => (Pref.mem_exhaustive_colouring hcol p hp).2
  have htotO : ∀ ca ∈ cp,
      ∀ col ∈ (Pref.productL os).map (fun t => net.leaf_players.zip t),
        ∃ b, Pref.is_assignment_stable net ca ((cp.map Prod.fst).dedup) col = some b := by
    intro ca hca col hcol
    exact htotE ca hca col (Pref.opti_mem_exhaustive net _ hosF hcol)
  have hg : Pref.guess_center_assignment net = cp := by
    simp [Pref.guess_center_assignment, hc]
  have h1 : Pref.find_all_nash_stable_assignments net =
      some (cp.flatMap (fun ca =>
        ((Pref.exhaustive_colouring net ((cp.map Prod.fst).dedup)).filter
            (fun col => Pref.is_assignment_stable net ca ((cp.map Prod.fst).dedup) col
              == some true)).map
          (fun col => Pref.extendAssignment col net.central_player ca.1))) := by
    unfold Pref.find_all_nash_stable_assignments
    simp only [hc]
    rw [hg, Pref.findAllLoop_spec net ((cp.map Prod.fst).dedup) cp htotE]
  have h2 : Pref.find_all_nash_stable_assignments_opti net =
      some (cp.flatMap (fun ca =>
        (((Pref.productL os).map (fun t => net.leaf_players.zip t)).filter
            (fun col => Pref.is_assignment_stable net ca ((cp.map Prod.fst).dedup) col
              == some true)).map
          (fun col => Pref.extendAssignment col net.central_player ca.1))) := by
    unfold Pref.find_all_nash_stable_assignments_opti
    simp only [hc]
    rw [hg, Pref.findAllLoopOpti_spec net ((cp.map Prod.fst).dedup) cp
      ((Pref.productL os).map (fun t => net.leaf_players.zip t)) hopti htotO]
  refine ⟨_, _, h1, h2, ?_⟩
  intro a
  simp only [List.mem_flatMap, List.mem_map, List.mem_filter]
  constructor
  · rintro ⟨ca, hca, col, ⟨hcolE, haccB⟩, rfl⟩
    exact ⟨ca, hca, col,
      ⟨List.mem_map.mp (Pref.accepted_mem_opti net ca _ hosF hcolE (eq_of_beq haccB)),
       haccB⟩, rfl⟩
  · rintro ⟨ca, hca, col, ⟨hcolO, haccB⟩, rfl⟩
    exact ⟨ca, hca, col,
      ⟨Pref.opti_mem_exhaustive net _ hosF (List.mem_map.mpr hcolO), haccB⟩, rfl⟩

/-- Claim C10, witness: at a concrete network both find-all variants return,
with the same set of stable assignments. -/
theorem c10_witness :
    ∃ r1 r2, Pref.find_all_nash_stable_assignments netTwoAct = some r1 ∧
      Pref.find_all_nash_stable_assignments_opti netTwoAct = some r2 ∧
      ∀ a, a ∈ r1 ↔ a ∈ r2 :=
  c10_opti_same_results netTwoAct [("A", 1), ("B", 1)] (by decide) (by decide)
